import Mathlib

/-!
Shallow embedding of the validation-result aggregation and triage logic of
the `rest-api-specs-scripts` repository.

Strings on the JavaScript side are modelled as `List Char`; the helpers
below reproduce the JavaScript string primitives the scripts use
(`trim`, regex replacement at the concrete patterns appearing in the code,
`indexOf`/`substring`), and `jsonParse` models `JSON.parse` at the level of
the JSON grammar (numbers are kept as their lexemes, which is enough to
distinguish any two parse results used here).
-/

/-- Characters matched by the JavaScript regex class `\s` (the ASCII part;
the Unicode space characters do not occur in any input considered here). -/
def jsWs (c : Char) : Bool :=
  c = ' ' || c = '\t' || c = '\n' || c = '\r' || c = '\x0b' || c = '\x0c'

/-- `String.prototype.trim`: drop leading and trailing whitespace. -/
def jsTrim (l : List Char) : List Char :=
  ((l.dropWhile jsWs).reverse.dropWhile jsWs).reverse

/-- JSON insignificant whitespace (RFC 8259: space, tab, LF, CR). -/
def jsonWs (c : Char) : Bool :=
  c = ' ' || c = '\t' || c = '\n' || c = '\r'

/-- Parsed JSON values. Number literals are kept as their lexeme. -/
inductive Json where
  | null : Json
  | bool (b : Bool) : Json
  | num (lit : String) : Json
  | str (s : String) : Json
  | arr (elems : List Json) : Json
  | obj (members : List (String × Json)) : Json

/-- Skip JSON whitespace. -/
def skipWs (l : List Char) : List Char := l.dropWhile jsonWs

/-- Value of a hexadecimal digit. -/
def hexVal (c : Char) : Option Nat :=
  if '0' ≤ c ∧ c ≤ '9' then some (c.toNat - '0'.toNat)
  else if 'a' ≤ c ∧ c ≤ 'f' then some (c.toNat - 'a'.toNat + 10)
  else if 'A' ≤ c ∧ c ≤ 'F' then some (c.toNat - 'A'.toNat + 10)
  else none

/-- The single-character JSON string escapes. -/
def escChar (c : Char) : Option Char :=
  if c = '"' then some '"'
  else if c = '\\' then some '\\'
  else if c = '/' then some '/'
  else if c = 'b' then some '\x08'
  else if c = 'f' then some '\x0c'
  else if c = 'n' then some '\n'
  else if c = 'r' then some '\r'
  else if c = 't' then some '\t'
  else none

/-- Parse the body of a JSON string literal (the characters after the
opening quote), returning the decoded characters and the rest of the
input after the closing quote. -/
def parseStrAux : List Char → Option (List Char × List Char)
  | [] => none
  | '"' :: rest => some ([], rest)
  | '\\' :: 'u' :: a :: b :: c :: d :: rest => do
      let ha ← hexVal a
      let hb ← hexVal b
      let hc ← hexVal c
      let hd ← hexVal d
      let (s, r) ← parseStrAux rest
      some (Char.ofNat (((ha * 16 + hb) * 16 + hc) * 16 + hd) :: s, r)
  | '\\' :: e :: rest => do
      let ch ← escChar e
      let (s, r) ← parseStrAux rest
      some (ch :: s, r)
  | c :: rest =>
      if c.toNat < 0x20 then none
      else do
        let (s, r) ← parseStrAux rest
        some (c :: s, r)

/-- Parse the optional fraction part of a JSON number, returning its lexeme. -/
def parseFrac (l : List Char) : Option (List Char × List Char) :=
  match l with
  | '.' :: r =>
      let ds := r.takeWhile Char.isDigit
      if ds.isEmpty then none else some ('.' :: ds, r.dropWhile Char.isDigit)
  | _ => some ([], l)

/-- Parse the optional exponent part of a JSON number, returning its lexeme. -/
def parseExp (l : List Char) : Option (List Char × List Char) :=
  match l with
  | e :: r =>
      if e = 'e' ∨ e = 'E' then
        let (sg, r1) : List Char × List Char :=
          match r with
          | '+' :: r2 => (['+'], r2)
          | '-' :: r2 => (['-'], r2)
          | _ => ([], r)
        let ds := r1.takeWhile Char.isDigit
        if ds.isEmpty then none
        else some (e :: (sg ++ ds), r1.dropWhile Char.isDigit)
      else some ([], l)
  | [] => some ([], [])

/-- Parse a JSON number literal, keeping the lexeme. -/
def parseNum (l : List Char) : Option (Json × List Char) := do
  let (sign, l1) : List Char × List Char :=
    match l with
    | '-' :: r => (['-'], r)
    | _ => ([], l)
  let (intPart, l2) ← (do
    match l1 with
    | '0' :: r => some (['0'], r)
    | c :: r =>
        if c.isDigit then
          some (c :: r.takeWhile Char.isDigit, r.dropWhile Char.isDigit)
        else none
    | [] => none : Option (List Char × List Char))
  let (fracPart, l3) ← parseFrac l2
  let (expPart, l4) ← parseExp l3
  some (Json.num (String.mk (sign ++ intPart ++ fracPart ++ expPart)), l4)

mutual

/-- Parse one JSON value (fuel-indexed; `jsonParse` supplies enough fuel). -/
def parseVal : Nat → List Char → Option (Json × List Char)
  | 0, _ => none
  | fuel+1, l =>
    match skipWs l with
    | 'n' :: 'u' :: 'l' :: 'l' :: r => some (Json.null, r)
    | 't' :: 'r' :: 'u' :: 'e' :: r => some (Json.bool true, r)
    | 'f' :: 'a' :: 'l' :: 's' :: 'e' :: r => some (Json.bool false, r)
    | '"' :: r => do
        let (s, r1) ← parseStrAux r
        some (Json.str (String.mk s), r1)
    | '[' :: r =>
        (match skipWs r with
         | ']' :: r1 => some (Json.arr [], r1)
         | _ => do
             let (vs, r1) ← parseElems fuel r
             some (Json.arr vs, r1))
    | '{' :: r =>
        (match skipWs r with
         | '}' :: r1 => some (Json.obj [], r1)
         | _ => do
             let (ms, r1) ← parseMembers fuel r
             some (Json.obj ms, r1))
    | l1 => parseNum l1

/-- Parse the elements of a non-empty JSON array, up to and including `]`. -/
def parseElems : Nat → List Char → Option (List Json × List Char)
  | 0, _ => none
  | fuel+1, l => do
      let (v, r) ← parseVal fuel l
      match skipWs r with
      | ',' :: r1 => do
          let (vs, r2) ← parseElems fuel r1
          some (v :: vs, r2)
      | ']' :: r1 => some ([v], r1)
      | _ => none

/-- Parse the members of a non-empty JSON object, up to and including `}`. -/
def parseMembers : Nat → List Char → Option (List (String × Json) × List Char)
  | 0, _ => none
  | fuel+1, l =>
      match skipWs l with
      | '"' :: r => do
          let (k, r1) ← parseStrAux r
          match skipWs r1 with
          | ':' :: r2 => do
              let (v, r3) ← parseVal fuel r2
              match skipWs r3 with
              | ',' :: r4 => do
                  let (ms, r5) ← parseMembers fuel r4
                  some ((String.mk k, v) :: ms, r5)
              | '}' :: r4 => some ([(String.mk k, v)], r4)
              | _ => none
          | _ => none
      | _ => none

end

/-- Model of `JSON.parse`: parse one value surrounded by optional
whitespace; anything else is a parse failure (`none`). -/
def jsonParse (s : String) : Option Json :=
  match parseVal (2 * s.length + 2) s.data with
  | some (v, r) => if (skipWs r).isEmpty then some v else none
  | none => none

/-!
## Malformed-stream repairers

Two distinct repairers exist in the source: `runOad` (breaking-change
script, part_000 lines 77-80) separates objects at `}` WHITESPACE-RUN `{`
and does not strip noise; `getLinterResult` (linter script, part_001 lines
69-88) strips progress-report noise lines, cuts at the first `{`, trims,
and separates objects only at the exact three characters `}` NEWLINE `{`.
-/
/-- Match the JavaScript regex fragment `\s+{` at the head of the input:
one or more whitespace characters directly followed by `{` (the greedy
`\s+` cannot give back characters to `{`, so this is exactly: the maximal
whitespace run is non-empty and is followed by `{`). Returns the input
after the `{` when it matches. -/
def wsOpen (l : List Char) : Option (List Char) :=
  if (l.takeWhile jsWs).isEmpty then none
  else
    match l.dropWhile jsWs with
    | '{' :: r => some r
    | _ => none

/-- One global pass of `result.replace(/}\s+{/gi, "},{")` (part_000 line
78): scanning left to right, each closing brace followed by whitespace and
an opening brace becomes `},{`, and scanning resumes after the match.
Fuel-indexed; every step consumes at least one character, so `sepOad`
passing the input length is enough fuel. -/
def sepOadAux : Nat → List Char → List Char
  | 0, l => l
  | _ + 1, [] => []
  | fuel + 1, '}' :: rest =>
      (match wsOpen rest with
       | some rest1 => '}' :: ',' :: '{' :: sepOadAux fuel rest1
       | none => '}' :: sepOadAux fuel rest)
  | fuel + 1, c :: rest => c :: sepOadAux fuel rest

/-- `result.replace(/}\s+{/gi, "},{")` over the whole string. -/
def sepOad (l : List Char) : List Char := sepOadAux l.length l

/-- The repair step of `runOad` (part_000 line 78): separate adjacent
objects, then wrap the whole string in brackets. -/
def runOadRepair (result : String) : String :=
  "[" ++ String.mk (sepOad result.data) ++ "]"

/-- The repair-and-parse step of `runOad` (part_000 lines 78-80); a
`JSON.parse` failure is a thrown exception that propagates out of
`runScript`, modelled as `Except.error`. -/
def runOadParse (result : String) : Except Unit Json :=
  match jsonParse (runOadRepair result) with
  | some v => Except.ok v
  | none => Except.error ()

/-- The literal part of the noise regex of part_001 line 71. -/
def noiseLit : List Char := "Processing batch task - \x7b".data

/-- Match the JavaScript regex `Processing batch task - {.*} \.\n` at the
head of the input. `.` does not match a newline, so a match lies within
one line: after the literal prefix, the segment up to the first newline
must end in the three characters `}` space `.`. Returns the input after
that newline when it matches. -/
def noiseMatch (l : List Char) : Option (List Char) :=
  if List.isPrefixOf noiseLit l then
    let afterLit := l.drop noiseLit.length
    let line := afterLit.takeWhile (fun c => c ≠ '\n')
    match afterLit.dropWhile (fun c => c ≠ '\n') with
    | '\n' :: r => if List.isSuffixOf ['}', ' ', '.'] line then some r else none
    | _ => none
  else none

/-- One global pass of
`resultString.replace(/Processing batch task - {.*} \.\n/g, "")`
(part_001 line 71). Fuel-indexed; a match consumes at least the literal
prefix, so the input length is enough fuel. -/
def stripNoiseAux : Nat → List Char → List Char
  | 0, l => l
  | _ + 1, [] => []
  | fuel + 1, c :: cs =>
      (match noiseMatch (c :: cs) with
       | some rest => stripNoiseAux fuel rest
       | none => c :: stripNoiseAux fuel cs)

/-- The noise-stripping replacement over the whole string. -/
def stripNoise (l : List Char) : List Char := stripNoiseAux l.length l

/-- `replace(/\}\n\{/g, "},\n{")` (part_001 line 72): only a closing brace
followed by exactly a NEWLINE and an opening brace is split; scanning
resumes after the match. -/
def sepLinter : List Char → List Char
  | '}' :: '\n' :: '{' :: rest => '}' :: ',' :: '\n' :: '{' :: sepLinter rest
  | c :: rest => c :: sepLinter rest
  | [] => []

/-- The output-repair portion of `getLinterResult` (part_001 lines 69-88),
as a function of `resultString = stdout + stderr`. A chunk without `{`
yields the empty array. Otherwise noise lines are stripped, the string is
cut at the first `{` (JavaScript `substring(indexOf('{'))`; when the
stripped string no longer contains `{`, `indexOf` is `-1` and
`substring(-1)` keeps the whole string), trimmed, object boundaries
`}` NEWLINE `{` get a comma, and the bracket-wrapped result is parsed.
A `JSON.parse` failure is `process.exit(1)`, modelled as `Except.error`
(aborting the whole run). -/
def processLinterOutput (resultString : String) : Except Unit Json :=
  if resultString.data.contains '{' then
    let s1 := stripNoise resultString.data
    let s2 := if s1.contains '{' then s1.dropWhile (fun c => c ≠ '{') else s1
    let s3 := sepLinter (jsTrim s2)
    match jsonParse ("[" ++ String.mk s3 ++ "]") with
    | some v => Except.ok v
    | none => Except.error ()
  else Except.ok (Json.arr [])

/-!
## The deterministic sorter (part_000 lines 229-241)
-/
/-- An oad diff record, with the fields the breaking-change script reads
(part_000 lines 34-39); `type` and `id` drive the sort. -/
structure Diff where
  type : String
  id : String
  code : String
  message : String
  deriving DecidableEq, Repr

/-- Three-way lexicographic comparison of character lists; models
`a.id.localeCompare(b.id)` (code-point order for the ASCII rule
identifiers occurring here). -/
def lexCmp : List Char → List Char → Int
  | [], [] => 0
  | [], _ :: _ => -1
  | _ :: _, [] => 1
  | a :: as, b :: bs => if a < b then -1 else if b < a then 1 else lexCmp as bs

/-- The comparator passed to `diffs.sort` (part_000 lines 229-241). -/
def diffCompare (a b : Diff) : Int :=
  if a.type = b.type then lexCmp a.id.data b.id.data
  else if a.type = "Error" then 1
  else if b.type = "Error" then -1
  else if a.type = "Warning" then 1
  else -1

/-- `a` may sit before `b` under the comparator (comparator value ≤ 0). -/
def diffLe (a b : Diff) : Bool := diffCompare a b ≤ 0

/-- Stable insertion: `a` goes immediately before the first element `b`
with `le a b`. -/
def insertLe (le : α → α → Bool) (a : α) : List α → List α
  | [] => [a]
  | b :: l => if le a b then a :: b :: l else b :: insertLe le a l

/-- Stable insertion sort by `le`. ECMAScript `Array.prototype.sort` is
specified to be stable, and on a consistent comparator every stable sort
produces this unique result. -/
def sortLe (le : α → α → Bool) : List α → List α
  | [] => []
  | a :: l => insertLe le a (sortLe le l)

/-- `diffs.sort(comparator)` of part_000 lines 229-241. -/
def sortDiffs (l : List Diff) : List Diff :=
  sortLe diffLe l

/-- A list is sorted for a Boolean `le` when consecutive-or-later pairs
all satisfy it. -/
abbrev SortedBy (le : α → α → Bool) (l : List α) : Prop :=
  l.Pairwise (fun x y => le x y = true)

/-- Severity rank used by the specification: Info 0, Warning 1, Error 2. -/
def sevRank (t : String) : Nat :=
  if t = "Error" then 2 else if t = "Warning" then 1 else 0

/-- The severity strings produced by oad and handled by the comparator. -/
def sevOk (d : Diff) : Prop :=
  d.type = "Info" ∨ d.type = "Warning" ∨ d.type = "Error"

instance (d : Diff) : Decidable (sevOk d) := by
  unfold sevOk
  infer_instance

/-- The specification's sort key: severity rank ascending, then rule id
lexicographic ascending on ties. -/
def keyLe (a b : Diff) : Prop :=
  sevRank a.type < sevRank b.type ∨
    (sevRank a.type = sevRank b.type ∧ lexCmp a.id.data b.id.data ≤ 0)

/-!
## Breaking-change script: the aggregation loop (part_000 lines 170-200)

A JavaScript object used as a string-keyed map is modelled as an
insertion-ordered association list: assignment to a fresh key appends,
assignment to an existing key overwrites in place.
-/
/-- JavaScript object member assignment `m[k] = v`. -/
def setKey : List (String × β) → String → β → List (String × β)
  | [], k, v => [(k, v)]
  | (k1, v1) :: m, k, v =>
      if k1 == k then (k1, v) :: m else (k1, v1) :: setKey m k v

/-- JavaScript object member read `m[k]` (`none` for a missing member). -/
def lookupKey : List (String × β) → String → Option β
  | [], _ => none
  | (k1, v1) :: m, k => if k1 == k then some v1 else lookupKey m k

/-- Count of the diffs of a given `type` string. -/
def countType (t : String) (ds : List Diff) : Nat :=
  (ds.filter (fun d => d.type == t)).length

/-- Total count of the diffs of a given `type` over a per-file map. -/
def totalType (t : String) (m : List (String × List Diff)) : Nat :=
  (m.map (fun p => countType t p.2)).sum

/-- The state threaded through the `for (const swagger of
swaggersToProcess)` loop of part_000 lines 170-200: the running
error/warning counters, the per-file diff map, the new-file list, and
whether `process.exitCode = 1` has been set. -/
structure BCState where
  errors : Nat
  warnings : Nat
  diffFiles : List (String × List Diff)
  newFiles : List String
  exitCode1 : Bool
  deriving Repr

/-- The loop over `swaggersToProcess` starts from zero counters, empty
maps and an unset exit code (part_000 lines 170-172). -/
def initBCState : BCState := ⟨0, 0, [], [], false⟩

/-- The body of the inner `for (const diff of diffs)` loop (part_000
lines 187-197): an `Error` diff bumps the error count, setting
`process.exitCode = 1` when it is the first error of the run; a `Warning`
diff bumps the warning count. -/
def stepDiffCount (st : BCState) (d : Diff) : BCState :=
  if d.type = "Error" then
    { st with errors := st.errors + 1,
              exitCode1 := st.exitCode1 || st.errors == 0 }
  else if d.type = "Warning" then
    { st with warnings := st.warnings + 1 }
  else st

/-- One iteration of the outer loop (part_000 lines 174-200): a swagger
detected as newly added is pushed onto `newFiles` and skipped; otherwise,
when AutoRest stored a resolved copy and oad produced a (possibly empty)
diff list, the diffs are recorded under the file and counted. -/
def stepSwagger (newSwaggers : List String) (resolved : String → Option String)
    (oadDiffs : String → String → Option (List Diff)) (st : BCState)
    (swagger : String) : BCState :=
  if newSwaggers.contains swagger then
    { st with newFiles := st.newFiles ++ [swagger] }
  else
    match resolved swagger with
    | none => st
    | some res =>
        match oadDiffs swagger res with
        | none => st
        | some diffs =>
            diffs.foldl stepDiffCount
              { st with diffFiles := setKey st.diffFiles swagger diffs }

/-- The whole outer loop of part_000 lines 170-200, as a function of the
changed files, the new-file detection result, the AutoRest resolution map
and the oad comparison outcome. -/
def processSwaggers (swaggers newSwaggers : List String)
    (resolved : String → Option String)
    (oadDiffs : String → String → Option (List Diff)) : BCState :=
  swaggers.foldl (stepSwagger newSwaggers resolved oadDiffs) initBCState

/-- A clean run per the observable outputs of part_000: the exit code was
never set (and, per `C3`, equivalently the title of part_000 line 254
reads `No potential breaking changes`). -/
def isClean (st : BCState) : Prop := st.exitCode1 = false

/-!
## Linter dual-run script (part_001, the before/after comparison)
-/
/-- The repaired string of part_001 line 72 for a chunk that contains a
brace (see `processLinterOutput`). -/
def linterRepaired (resultString : String) : String :=
  let s1 := stripNoise resultString.data
  let s2 := if s1.contains '{' then s1.dropWhile (fun c => c ≠ '{') else s1
  "[" ++ String.mk (sepLinter (jsTrim s2)) ++ "]"

/-- Observable events of the dual-run script: branch checkout/restore and
per-file linter processing (`run` marks entering `runTools`, `invoke` the
AutoRest subprocess inside `getLinterResult`). -/
inductive Ev where
  | checkout (branch : String) : Ev
  | restore : Ev
  | run (phase : String) (file : String) : Ev
  | invoke (phase : String) (file : String) : Ev
  deriving DecidableEq, Repr

/-- State of one `runScript` invocation of part_001: the
`finalResult.files` map (file → phase → parsed linter output), the event
trace, and whether the process died (`process.exit(1)` or a thrown
parameter error). -/
structure MotState where
  files : List (String × List (String × Json))
  trace : List Ev
  failed : Bool

/-- `updateResult` (part_001 lines 99-109): ensure the per-file object
exists, then set its `beforeOrAfter` member to the parsed errors. -/
def updateResult (files : List (String × List (String × Json)))
    (spec : String) (errors : Json) (beforeOrAfter : String) :
    List (String × List (String × Json)) :=
  setKey files spec (setKey ((lookupKey files spec).getD []) beforeOrAfter errors)

/-- `runTools` (part_001 lines 91-96) with the working tree described by
`ex` (file existence on disk) and `chunk` (linter stdout+stderr): a dead
process does nothing; an empty path is the thrown parameter error of
`getLinterResult` line 50; a missing file yields `[]` without invoking
the linter (line 55); otherwise the linter is invoked and its repaired
output recorded under the file and phase, a parse failure killing the
process. -/
def runTools (ex : String → Bool) (chunk : String → String) (phase : String)
    (st : MotState) (file : String) : MotState :=
  if st.failed then st
  else
    let st1 : MotState := { st with trace := st.trace ++ [Ev.run phase file] }
    if (jsTrim file.data).isEmpty then { st1 with failed := true }
    else if ex file then
      let st2 : MotState := { st1 with trace := st1.trace ++ [Ev.invoke phase file] }
      match processLinterOutput (chunk file) with
      | Except.ok v => { st2 with files := updateResult st2.files file v phase }
      | Except.error _ => { st2 with failed := true }
    else { st1 with files := updateResult st1.files file (Json.arr []) phase }

/-- Modelled from the spec: `utils.doOnBranch` (utils.ts is not under
src/) checks out the given branch, runs the action inside that single
shared reference checkout, and restores the previous checkout afterwards
(spec §4.5 and §5: one serialization point, no second checkout). No
restore happens when the action killed the process. -/
def doOnBranch (branch : String) (st : MotState)
    (action : MotState → MotState) : MotState :=
  if st.failed then st
  else
    let st1 := action { st with trace := st.trace ++ [Ev.checkout branch] }
    if st1.failed then st1 else { st1 with trace := st1.trace ++ [Ev.restore] }

/-- `runScript` (part_001 lines 112-131): with at least one changed config
file, all `after` runs execute against the PR working tree
(`exPR`/`chunkPR`), then a single `doOnBranch(target)` wraps all `before`
runs against the reference checkout (`exTgt`/`chunkTgt`); with no config
files nothing at all happens. -/
def motRun (target : String) (exPR exTgt : String → Bool)
    (chunkPR chunkTgt : String → String) (configs : List String) : MotState :=
  if 0 < configs.length then
    let st1 := configs.foldl (runTools exPR chunkPR "after") ⟨[], [], false⟩
    doOnBranch target st1
      (fun st => configs.foldl (runTools exTgt chunkTgt "before") st)
  else ⟨[], [], false⟩

/-- The events one live `runTools` call appends. -/
def runSeg (ex : String → Bool) (phase : String) (f : String) : List Ev :=
  Ev.run phase f :: (if ex f then [Ev.invoke phase f] else [])

/-- The parsed value `getLinterResult` hands to `updateResult` for `f`
when it does not kill the process. -/
def linterResultOf (ex : String → Bool) (chunk : String → String) (f : String) : Json :=
  if ex f then
    match processLinterOutput (chunk f) with
    | Except.ok v => v
    | Except.error _ => Json.arr []
  else Json.arr []

/-- Processing of `f` by `runTools` does not kill the process: the path
is non-blank and, when the file exists, its linter output parses. -/
def toolOk (ex : String → Bool) (chunk : String → String) (f : String) : Prop :=
  (jsTrim f.data).isEmpty = false ∧
    (ex f = true → processLinterOutput (chunk f) ≠ Except.error ())

/-- An event is a branch checkout. -/
def isCheckout : Ev → Bool
  | Ev.checkout _ => true
  | Ev.restore => false
  | Ev.run _ _ => false
  | Ev.invoke _ _ => false

/-!
## Model-validation pipeline (src/modelValidationPipeline.ts)
-/
/-- One location record pushed onto `paths`. -/
structure MsgPath where
  tag : String
  path : String
  deriving DecidableEq, Repr

/-- The fields of one oav model-validation error that `main` reads
(src/modelValidationPipeline.ts lines 28-65). The `position` and
`jsonPosition` members carry the line number of the corresponding
`{line, column}` location object (`String(it.details!.position.line)`);
an absent location object is `none`. -/
structure ValidationError where
  code : Option String
  message : Option String
  url : Option String
  position : Option Nat
  jsonUrl : Option String
  jsonPosition : Option Nat
  deriving DecidableEq, Repr

/-- The `format.ResultMessageRecord` fields the pipeline populates
(`time` and the opaque `extra` passthrough are not modelled). -/
structure ResultMessageRecord where
  type : String
  level : String
  message : String
  code : String
  docUrl : String
  paths : List MsgPath
  deriving DecidableEq, Repr

/-- `getDocUrl` (src/modelValidationPipeline.ts lines 10-12); an absent
id renders as the literal text `undefined` inside the template string. -/
def getDocUrl (id : Option String) : String :=
  "https://github.com/Azure/azure-rest-api-specs/blob/master/documentation/Semantic-and-Model-Violations-Reference.md#"
    ++ (match id with
        | some s => s
        | none => "undefined")

/-- Modelled from the spec: `utils.blobHref`, `utils.getGithubStyleFilePath`
and `utils.getRelativeSwaggerPathToRepo` (utils.ts is not under src/)
together turn `url + '#L' + line` into a clickable repository path; only
the fact that the path carries the url and the appended 1-based line
fragment matters here (spec §4.2). -/
def hrefOf (url : String) (line : Nat) : String := url ++ "#L" ++ toString line

/-- The record built for one validation error (lines 28-66): fixed
Result/Error header fields, and the two `paths.push` statements — the
`Url` location only when the source url and position are both truthy,
the `JsonUrl` location only when the compiled-JSON url and position are
both truthy (JavaScript truthiness: an absent field and the empty string
are falsy; a present location object is truthy). -/
def toResultRecord (it : ValidationError) : ResultMessageRecord :=
  { type := "Result"
    level := "Error"
    message := it.message.getD ""
    code := it.code.getD ""
    docUrl := getDocUrl it.code
    paths :=
      (match it.url, it.position with
       | some u, some p => if u.isEmpty then [] else [⟨"Url", hrefOf u p⟩]
       | _, _ => []) ++
      (match it.jsonUrl, it.jsonPosition with
       | some u, some p => if u.isEmpty then [] else [⟨"JsonUrl", hrefOf u p⟩]
       | _, _ => []) }

/-- The state `main` (lines 14-77) accumulates: the exit code, the record
lists appended to pipe.log labelled by the file whose iteration appended
them, and the files whose validation threw (caught per file, lines
70-74). -/
structure MVState where
  exitCode : Nat
  pipeLog : List (String × List ResultMessageRecord)
  caught : List String
  deriving DecidableEq, Repr

/-- One iteration of the `for (const swagger of swaggersToProcess)` loop
of `main`: the oav validator run is an injected capability returning the
validation errors or a thrown exception; on success the mapped records
are appended to pipe.log (a non-empty list setting exit code 1), a throw
is caught inside the iteration, logged for that file and the exit code
set, and the loop continues with the next file. -/
def mvStep (validate : String → Except String (List ValidationError))
    (st : MVState) (swagger : String) : MVState :=
  match validate swagger with
  | Except.ok errs =>
      { st with
        pipeLog := st.pipeLog ++ [(swagger, errs.map toResultRecord)],
        exitCode := if 0 < (errs.map toResultRecord).length then 1 else st.exitCode }
  | Except.error _ =>
      { st with exitCode := 1, caught := st.caught ++ [swagger] }

/-- The whole loop of `main` over the changed files. -/
def mvMain (validate : String → Except String (List ValidationError))
    (swaggers : List String) : MVState :=
  swaggers.foldl (mvStep validate) ⟨0, [], []⟩

/-- The records iteration `f` appends when its validation succeeds. -/
def mvRecsOf (validate : String → Except String (List ValidationError))
    (f : String) : List ResultMessageRecord :=
  match validate f with
  | Except.ok errs => errs.map toResultRecord
  | Except.error _ => []

/-!
## Claim theorems
-/
/-- Sample diffs used by the concrete witnesses. -/
def dInfoB : Diff := ⟨"Info", "1008", "ModifiedOperationId", "m1"⟩

def dWarnA : Diff := ⟨"Warning", "1003", "RequestOptionalityChange", "m2"⟩

def dErrA : Diff := ⟨"Error", "1005", "RemovedPath", "m3"⟩

def dErrB : Diff := ⟨"Error", "1005", "RemovedPath", "m4"⟩

example : jsonParse "[\x7b \"a\":1 \x7d,\x7b \"a\":2 \x7d]" =
    some (Json.arr [Json.obj [("a", Json.num "1")], Json.obj [("a", Json.num "2")]]) := by
  rfl

example : jsonParse "[\x7b \"a\":1 \x7d \x7b \"a\":2 \x7d]" = none := by rfl

example : runOadParse "\x7b \"a\":1 \x7d \x7b \"a\":2 \x7d" =
    Except.ok (Json.arr [Json.obj [("a", Json.num "1")], Json.obj [("a", Json.num "2")]]) := by
  rfl

example : processLinterOutput "\x7b \"a\":1 \x7d \x7b \"a\":2 \x7d" = Except.error () := by rfl

example : processLinterOutput "\x7b \"a\":1 \x7d\n\x7b \"a\":2 \x7d" =
    Except.ok (Json.arr [Json.obj [("a", Json.num "1")], Json.obj [("a", Json.num "2")]]) := by
  rfl

example : processLinterOutput "no braces at all" = Except.ok (Json.arr []) := by rfl

example : processLinterOutput "warning: x\nProcessing batch task - \x7b\"f\":1\x7d .\n\x7b \"a\":1 \x7d" =
    Except.ok (Json.arr [Json.obj [("a", Json.num "1")]]) := by rfl

theorem lexCmp_swap : ∀ l m : List Char, lexCmp m l = - lexCmp l m := by
  intro l
  induction l with
  | nil => intro m; cases m <;> simp [lexCmp]
  | cons a as ih =>
    intro m
    cases m with
    | nil => simp [lexCmp]
    | cons b bs =>
      simp only [lexCmp]
      rcases lt_trichotomy a b with h | h | h
      · have h1 : ¬ b < a := not_lt_of_gt h
        simp [h, h1]
      · subst h
        simp [lt_irrefl, ih bs]
      · have h1 : ¬ a < b := not_lt_of_gt h
        simp [h, h1]

theorem lexCmp_total (l m : List Char) : lexCmp l m ≤ 0 ∨ lexCmp m l ≤ 0 := by
  by_cases h : lexCmp l m ≤ 0
  · exact Or.inl h
  · right
    rw [lexCmp_swap]
    omega

theorem lexCmp_trans {l m n : List Char} (h1 : lexCmp l m ≤ 0) (h2 : lexCmp m n ≤ 0) :
    lexCmp l n ≤ 0 := by
  induction l generalizing m n with
  | nil => cases n <;> simp [lexCmp]
  | cons a as ih =>
    cases m with
    | nil => simp [lexCmp] at h1
    | cons b bs =>
      cases n with
      | nil => simp [lexCmp] at h2
      | cons c cs =>
        simp only [lexCmp] at h1 h2 ⊢
        rcases lt_trichotomy a b with hab | hab | hab
        · rcases lt_trichotomy b c with hbc | hbc | hbc
          · have : a < c := lt_trans hab hbc
            simp [this]
          · subst hbc; simp [hab]
          · have h3 : ¬ b < c := not_lt_of_gt hbc
            simp [hbc, h3] at h2
        · subst hab
          rcases lt_trichotomy a c with hac | hac | hac
          · simp [hac]
          · subst hac
            simp [lt_irrefl] at h1 h2 ⊢
            exact ih h1 h2
          · have h3 : ¬ a < c := not_lt_of_gt hac
            simp [hac, h3] at h2
        · have h3 : ¬ a < b := not_lt_of_gt hab
          simp [hab, h3] at h1

theorem lexCmp_refl : ∀ l : List Char, lexCmp l l = 0 := by
  intro l
  induction l with
  | nil => rfl
  | cons a as ih => simp [lexCmp, lt_irrefl, ih]

/-- On the three severities the comparator realises exactly the
specification's key order. -/
theorem diffLe_iff_keyLe {a b : Diff} (ha : sevOk a) (hb : sevOk b) :
    diffLe a b = true ↔ keyLe a b := by
  rcases ha with ha | ha | ha <;> rcases hb with hb | hb | hb <;>
    simp [diffLe, diffCompare, keyLe, sevRank, ha, hb]

theorem keyLe_total (a b : Diff) : keyLe a b ∨ keyLe b a := by
  rcases Nat.lt_trichotomy (sevRank a.type) (sevRank b.type) with h | h | h
  · exact Or.inl (Or.inl h)
  · rcases lexCmp_total a.id.data b.id.data with h1 | h1
    · exact Or.inl (Or.inr ⟨h, h1⟩)
    · exact Or.inr (Or.inr ⟨h.symm, h1⟩)
  · exact Or.inr (Or.inl h)

theorem keyLe_trans {a b c : Diff} (h1 : keyLe a b) (h2 : keyLe b c) : keyLe a c := by
  rcases h1 with h1 | ⟨h1, h1'⟩ <;> rcases h2 with h2 | ⟨h2, h2'⟩
  · exact Or.inl (lt_trans h1 h2)
  · exact Or.inl (h2 ▸ h1)
  · exact Or.inl (h1 ▸ h2)
  · exact Or.inr ⟨h1.trans h2, lexCmp_trans h1' h2'⟩

theorem diffLe_total {a b : Diff} (ha : sevOk a) (hb : sevOk b) :
    diffLe a b = true ∨ diffLe b a = true := by
  rcases keyLe_total a b with h | h
  · exact Or.inl ((diffLe_iff_keyLe ha hb).2 h)
  · exact Or.inr ((diffLe_iff_keyLe hb ha).2 h)

theorem diffLe_trans {a b c : Diff} (ha : sevOk a) (hb : sevOk b) (hc : sevOk c)
    (h1 : diffLe a b = true) (h2 : diffLe b c = true) : diffLe a c = true :=
  (diffLe_iff_keyLe ha hc).2
    (keyLe_trans ((diffLe_iff_keyLe ha hb).1 h1) ((diffLe_iff_keyLe hb hc).1 h2))

theorem insertLe_perm (le : α → α → Bool) (a : α) (l : List α) :
    List.Perm (insertLe le a l) (a :: l) := by
  induction l with
  | nil => simp [insertLe]
  | cons b m ih =>
    simp only [insertLe]
    by_cases h : le a b = true
    · rw [if_pos h]
    · rw [if_neg h]
      exact (List.Perm.cons b ih).trans (List.Perm.swap a b m)

theorem sortLe_perm (le : α → α → Bool) (l : List α) :
    List.Perm (sortLe le l) l := by
  induction l with
  | nil => simp [sortLe]
  | cons a m ih =>
    exact (insertLe_perm le a (sortLe le m)).trans (List.Perm.cons a ih)

theorem mem_insertLe {le : α → α → Bool} {a x : α} {l : List α} :
    x ∈ insertLe le a l ↔ x = a ∨ x ∈ l := by
  rw [(insertLe_perm le a l).mem_iff]
  simp

theorem mem_sortLe {le : α → α → Bool} {x : α} {l : List α} :
    x ∈ sortLe le l ↔ x ∈ l :=
  (sortLe_perm le l).mem_iff

theorem pairwise_insertLe {le : α → α → Bool} {P : α → Prop}
    (total : ∀ x y, P x → P y → le x y = true ∨ le y x = true)
    (htrans : ∀ x y z, P x → P y → P z → le x y = true → le y z = true → le x z = true)
    {a : α} {l : List α} (hPa : P a) (hPl : ∀ x ∈ l, P x)
    (hl : SortedBy le l) : SortedBy le (insertLe le a l) := by
  induction l with
  | nil => simp [insertLe, SortedBy]
  | cons b m ih =>
    simp only [insertLe]
    have hl' := List.pairwise_cons.1 hl
    by_cases h : le a b = true
    · rw [if_pos h]
      refine List.Pairwise.cons ?_ hl
      intro x hx
      rcases List.mem_cons.1 hx with rfl | hxm
      · exact h
      · exact htrans a b x hPa (hPl b (by simp)) (hPl x (by simp [hxm])) h (hl'.1 x hxm)
    · rw [if_neg h]
      have hba : le b a = true := by
        rcases total a b hPa (hPl b (by simp)) with h1 | h1
        · exact absurd h1 h
        · exact h1
      refine List.Pairwise.cons ?_ (ih (fun x hx => hPl x (by simp [hx])) hl'.2)
      intro x hx
      rcases mem_insertLe.1 hx with rfl | hxm
      · exact hba
      · exact hl'.1 x hxm

theorem sortLe_pairwise {le : α → α → Bool} {P : α → Prop}
    (total : ∀ x y, P x → P y → le x y = true ∨ le y x = true)
    (htrans : ∀ x y z, P x → P y → P z → le x y = true → le y z = true → le x z = true)
    {l : List α} (hPl : ∀ x ∈ l, P x) : SortedBy le (sortLe le l) := by
  induction l with
  | nil => simp [sortLe, SortedBy]
  | cons a m ih =>
    exact pairwise_insertLe total htrans (hPl a (by simp))
      (fun x hx => hPl x (by simp [mem_sortLe.1 hx]))
      (ih fun x hx => hPl x (by simp [hx]))

theorem sortLe_eq_self {le : α → α → Bool} {l : List α} (h : SortedBy le l) :
    sortLe le l = l := by
  induction l with
  | nil => rfl
  | cons a m ih =>
    have h' := List.pairwise_cons.1 h
    simp only [sortLe, ih h'.2]
    cases m with
    | nil => rfl
    | cons b m' => simp [insertLe, h'.1 b (by simp)]

theorem sublist_insertLe (le : α → α → Bool) (a : α) (l : List α) :
    List.Sublist l (insertLe le a l) := by
  induction l with
  | nil => simp [insertLe]
  | cons b m ih =>
    simp only [insertLe]
    by_cases h : le a b = true
    · rw [if_pos h]
      exact List.Sublist.cons a (List.Sublist.refl _)
    · rw [if_neg h]
      exact List.Sublist.cons₂ b ih

theorem cons_sublist_insertLe {le : α → α → Bool} {a : α} {c l : List α}
    (hc : ∀ x ∈ c, le a x = true) (h : List.Sublist c l) :
    List.Sublist (a :: c) (insertLe le a l) := by
  induction l generalizing c with
  | nil =>
    rw [List.sublist_nil.1 h]
    simp [insertLe]
  | cons b m ih =>
    simp only [insertLe]
    by_cases hab : le a b = true
    · rw [if_pos hab]
      exact List.Sublist.cons₂ a h
    · rw [if_neg hab]
      cases h with
      | cons _ h' => exact List.Sublist.cons b (ih hc h')
      | cons₂ _ h' => exact absurd (hc b (by simp)) hab

/-- Stability of the insertion sort: any chain of `le` already in list
order survives sorting as a sublist. -/
theorem sortLe_stable {le : α → α → Bool} {c l : List α}
    (hc : SortedBy le c) (h : List.Sublist c l) : List.Sublist c (sortLe le l) := by
  induction l generalizing c with
  | nil =>
    rw [List.sublist_nil.1 h]
    exact List.nil_sublist _
  | cons a m ih =>
    simp only [sortLe]
    cases h with
    | cons _ h' => exact (ih hc h').trans (sublist_insertLe le a (sortLe le m))
    | cons₂ _ h' =>
      have hc' := List.pairwise_cons.1 hc
      exact cons_sublist_insertLe hc'.1 (ih hc'.2 h')

theorem lookupKey_setKey_self (m : List (String × β)) (k : String) (v : β) :
    lookupKey (setKey m k v) k = some v := by
  induction m with
  | nil => simp [setKey, lookupKey]
  | cons p m ih =>
    obtain ⟨k1, v1⟩ := p
    by_cases h : k1 = k
    · simp [setKey, lookupKey, h]
    · simp [setKey, lookupKey, h, ih]

theorem lookupKey_setKey_ne (m : List (String × β)) (k v) {k' : String} (h : k' ≠ k) :
    lookupKey (setKey m k v) k' = lookupKey m k' := by
  induction m with
  | nil => simp [setKey, lookupKey, Ne.symm h]
  | cons p m ih =>
    obtain ⟨k1, v1⟩ := p
    by_cases h1 : k1 = k
    · subst h1
      simp [setKey, lookupKey, Ne.symm h]
    · simp [setKey, lookupKey, h1, ih]

theorem setKey_of_lookup_none {m : List (String × β)} {k : String}
    (h : lookupKey m k = none) (v : β) : setKey m k v = m ++ [(k, v)] := by
  induction m with
  | nil => simp [setKey]
  | cons p m ih =>
    obtain ⟨k1, v1⟩ := p
    by_cases h1 : k1 = k
    · simp [lookupKey, h1] at h
    · simp [lookupKey, h1] at h
      simp [setKey, h1, ih h]

theorem countType_cons (t : String) (d : Diff) (ds : List Diff) :
    countType t (d :: ds) = (if d.type = t then 1 else 0) + countType t ds := by
  by_cases h : d.type = t <;> simp [countType, List.filter_cons, h, Nat.add_comm]

theorem stepDiffCount_fields (st : BCState) (d : Diff) :
    (stepDiffCount st d).errors = st.errors + (if d.type = "Error" then 1 else 0) ∧
    (stepDiffCount st d).warnings = st.warnings + (if d.type = "Warning" then 1 else 0) ∧
    (stepDiffCount st d).diffFiles = st.diffFiles ∧
    (stepDiffCount st d).newFiles = st.newFiles := by
  by_cases h : d.type = "Error"
  · simp [stepDiffCount, h]
  · by_cases h2 : d.type = "Warning" <;> simp [stepDiffCount, h, h2]

/-- Net effect of the inner counting loop on a state: the counters grow
by the per-type counts, everything else is untouched. -/
theorem stepDiffCount_fold (ds : List Diff) (st : BCState) :
    (ds.foldl stepDiffCount st).errors = st.errors + countType "Error" ds ∧
    (ds.foldl stepDiffCount st).warnings = st.warnings + countType "Warning" ds ∧
    (ds.foldl stepDiffCount st).diffFiles = st.diffFiles ∧
    (ds.foldl stepDiffCount st).newFiles = st.newFiles := by
  induction ds generalizing st with
  | nil => simp [countType]
  | cons d ds ih =>
    rcases ih (stepDiffCount st d) with ⟨he, hw, hd, hn⟩
    rcases stepDiffCount_fields st d with ⟨hse, hsw, hsd, hsn⟩
    rw [List.foldl_cons]
    refine ⟨?_, ?_, ?_, ?_⟩
    · rw [he, hse, countType_cons, Nat.add_assoc]
    · rw [hw, hsw, countType_cons, Nat.add_assoc]
    · rw [hd, hsd]
    · rw [hn, hsn]

/-- The exit-code flag tracks exactly `errors > 0` across the counting
loop. -/
theorem stepDiffCount_fold_exit (ds : List Diff) (st : BCState)
    (h : st.exitCode1 = decide (0 < st.errors)) :
    (ds.foldl stepDiffCount st).exitCode1 = decide (0 < (ds.foldl stepDiffCount st).errors) := by
  induction ds generalizing st with
  | nil => exact h
  | cons d ds ih =>
    refine ih (stepDiffCount st d) ?_
    by_cases h1 : d.type = "Error"
    · cases hn : st.errors with
      | zero => simp [stepDiffCount, h1, hn, h]
      | succ n => simp [stepDiffCount, h1, hn, h]
    · by_cases h2 : d.type = "Warning" <;> simp [stepDiffCount, h1, h2, h]

theorem totalType_append (t : String) (m : List (String × List Diff)) (k : String)
    (ds : List Diff) : totalType t (m ++ [(k, ds)]) = totalType t m + countType t ds := by
  simp [totalType]

theorem stepSwagger_new (newSwaggers : List String) (resolved : String → Option String)
    (oadDiffs : String → String → Option (List Diff)) (st : BCState) (a : String)
    (h : newSwaggers.contains a = true) :
    stepSwagger newSwaggers resolved oadDiffs st a =
      { st with newFiles := st.newFiles ++ [a] } := by
  have h1 : a ∈ newSwaggers := by simpa using h
  simp [stepSwagger, h1]

theorem stepSwagger_nores (newSwaggers : List String) (resolved : String → Option String)
    (oadDiffs : String → String → Option (List Diff)) (st : BCState) (a : String)
    (h : newSwaggers.contains a = false) (hres : resolved a = none) :
    stepSwagger newSwaggers resolved oadDiffs st a = st := by
  have h1 : a ∉ newSwaggers := by simpa using h
  simp [stepSwagger, h1, hres]

theorem stepSwagger_nodiff (newSwaggers : List String) (resolved : String → Option String)
    (oadDiffs : String → String → Option (List Diff)) (st : BCState) (a res : String)
    (h : newSwaggers.contains a = false) (hres : resolved a = some res)
    (hod : oadDiffs a res = none) :
    stepSwagger newSwaggers resolved oadDiffs st a = st := by
  have h1 : a ∉ newSwaggers := by simpa using h
  simp [stepSwagger, h1, hres, hod]

theorem stepSwagger_diffs (newSwaggers : List String) (resolved : String → Option String)
    (oadDiffs : String → String → Option (List Diff)) (st : BCState) (a res : String)
    (diffs : List Diff) (h : newSwaggers.contains a = false) (hres : resolved a = some res)
    (hod : oadDiffs a res = some diffs) :
    stepSwagger newSwaggers resolved oadDiffs st a =
      diffs.foldl stepDiffCount { st with diffFiles := setKey st.diffFiles a diffs } := by
  have h1 : a ∉ newSwaggers := by simpa using h
  simp [stepSwagger, h1, hres, hod]

/-- Outer-loop invariant: when the counters already sum the map and the
remaining swaggers are fresh keys, the counters stay equal to the
per-type totals of the per-file diff map. -/
theorem processLoop_counts (newSwaggers : List String)
    (resolved : String → Option String)
    (oadDiffs : String → String → Option (List Diff)) :
    ∀ (swaggers : List String) (st : BCState),
      swaggers.Nodup →
      (∀ s ∈ swaggers, lookupKey st.diffFiles s = none) →
      st.errors = totalType "Error" st.diffFiles →
      st.warnings = totalType "Warning" st.diffFiles →
      (swaggers.foldl (stepSwagger newSwaggers resolved oadDiffs) st).errors =
        totalType "Error"
          (swaggers.foldl (stepSwagger newSwaggers resolved oadDiffs) st).diffFiles ∧
      (swaggers.foldl (stepSwagger newSwaggers resolved oadDiffs) st).warnings =
        totalType "Warning"
          (swaggers.foldl (stepSwagger newSwaggers resolved oadDiffs) st).diffFiles := by
  intro swaggers
  induction swaggers with
  | nil => intro st _ _ he hw; exact ⟨he, hw⟩
  | cons a rest ih =>
    intro st hnd hfresh he hw
    rw [List.foldl_cons]
    have hna : a ∉ rest := (List.nodup_cons.1 hnd).1
    have hnd' : rest.Nodup := (List.nodup_cons.1 hnd).2
    have hla : lookupKey st.diffFiles a = none := hfresh a (by simp)
    cases hnew : newSwaggers.contains a with
    | true =>
      rw [stepSwagger_new newSwaggers resolved oadDiffs st a hnew]
      exact ih _ hnd' (fun s hs => hfresh s (by simp [hs])) he hw
    | false =>
      cases hres : resolved a with
      | none =>
        rw [stepSwagger_nores newSwaggers resolved oadDiffs st a hnew hres]
        exact ih _ hnd' (fun s hs => hfresh s (by simp [hs])) he hw
      | some res =>
        cases hod : oadDiffs a res with
        | none =>
          rw [stepSwagger_nodiff newSwaggers resolved oadDiffs st a res hnew hres hod]
          exact ih _ hnd' (fun s hs => hfresh s (by simp [hs])) he hw
        | some diffs =>
          rw [stepSwagger_diffs newSwaggers resolved oadDiffs st a res diffs hnew hres hod]
          rcases stepDiffCount_fold diffs { st with diffFiles := setKey st.diffFiles a diffs }
            with ⟨he1, hw1, hd1, _⟩
          have hdf : (diffs.foldl stepDiffCount
              { st with diffFiles := setKey st.diffFiles a diffs }).diffFiles =
              st.diffFiles ++ [(a, diffs)] := by
            rw [hd1]
            exact setKey_of_lookup_none hla diffs
          refine ih _ hnd' ?_ ?_ ?_
          · intro s hs
            have hsa : s ≠ a := fun hsa => hna (hsa ▸ hs)
            rw [hd1]
            show lookupKey (setKey st.diffFiles a diffs) s = none
            rw [lookupKey_setKey_ne _ _ _ hsa]
            exact hfresh s (by simp [hs])
          · rw [he1, hdf, totalType_append]
            exact congrArg (· + countType "Error" diffs) he
          · rw [hw1, hdf, totalType_append]
            exact congrArg (· + countType "Warning" diffs) hw

/-- The exit-code flag of the outer loop tracks exactly `0 < errors`. -/
theorem processLoop_exit (newSwaggers : List String)
    (resolved : String → Option String)
    (oadDiffs : String → String → Option (List Diff)) :
    ∀ (swaggers : List String) (st : BCState),
      st.exitCode1 = decide (0 < st.errors) →
      (swaggers.foldl (stepSwagger newSwaggers resolved oadDiffs) st).exitCode1 =
        decide (0 < (swaggers.foldl (stepSwagger newSwaggers resolved oadDiffs) st).errors) := by
  intro swaggers
  induction swaggers with
  | nil => intro st h; exact h
  | cons a rest ih =>
    intro st h
    rw [List.foldl_cons]
    cases hnew : newSwaggers.contains a with
    | true =>
      rw [stepSwagger_new newSwaggers resolved oadDiffs st a hnew]
      exact ih _ h
    | false =>
      cases hres : resolved a with
      | none =>
        rw [stepSwagger_nores newSwaggers resolved oadDiffs st a hnew hres]
        exact ih _ h
      | some res =>
        cases hod : oadDiffs a res with
        | none =>
          rw [stepSwagger_nodiff newSwaggers resolved oadDiffs st a res hnew hres hod]
          exact ih _ h
        | some diffs =>
          rw [stepSwagger_diffs newSwaggers resolved oadDiffs st a res diffs hnew hres hod]
          exact ih _ (stepDiffCount_fold_exit diffs _ h)

/-- Outer-loop invariant for C5: every recorded new file is in the
new-swagger set, and no member of the new-swagger set is a key of the
per-file diff map. -/
theorem processLoop_newFiles (newSwaggers : List String)
    (resolved : String → Option String)
    (oadDiffs : String → String → Option (List Diff)) :
    ∀ (swaggers : List String) (st : BCState),
      (∀ g ∈ st.newFiles, newSwaggers.contains g = true) →
      (∀ k, newSwaggers.contains k = true → lookupKey st.diffFiles k = none) →
      (∀ g ∈ (swaggers.foldl (stepSwagger newSwaggers resolved oadDiffs) st).newFiles,
          newSwaggers.contains g = true) ∧
      (∀ k, newSwaggers.contains k = true →
          lookupKey (swaggers.foldl (stepSwagger newSwaggers resolved oadDiffs) st).diffFiles k
            = none) := by
  intro swaggers
  induction swaggers with
  | nil => intro st h1 h2; exact ⟨h1, h2⟩
  | cons a rest ih =>
    intro st h1 h2
    rw [List.foldl_cons]
    cases hnew : newSwaggers.contains a with
    | true =>
      rw [stepSwagger_new newSwaggers resolved oadDiffs st a hnew]
      refine ih _ ?_ h2
      intro g hg
      rcases List.mem_append.1 hg with hg | hg
      · exact h1 g hg
      · rw [List.mem_singleton.1 hg]
        exact hnew
    | false =>
      cases hres : resolved a with
      | none =>
        rw [stepSwagger_nores newSwaggers resolved oadDiffs st a hnew hres]
        exact ih _ h1 h2
      | some res =>
        cases hod : oadDiffs a res with
        | none =>
          rw [stepSwagger_nodiff newSwaggers resolved oadDiffs st a res hnew hres hod]
          exact ih _ h1 h2
        | some diffs =>
          rw [stepSwagger_diffs newSwaggers resolved oadDiffs st a res diffs hnew hres hod]
          rcases stepDiffCount_fold diffs { st with diffFiles := setKey st.diffFiles a diffs }
            with ⟨_, _, hd1, hn1⟩
          refine ih _ ?_ ?_
          · intro g hg
            rw [hn1] at hg
            exact h1 g hg
          · intro k hk
            rw [hd1]
            show lookupKey (setKey st.diffFiles a diffs) k = none
            have hka : k ≠ a := by
              intro hka
              rw [hka] at hk
              rw [hk] at hnew
              exact Bool.noConfusion hnew
            rw [lookupKey_setKey_ne _ _ _ hka]
            exact h2 k hk

theorem processLinterOutput_def (s : String) :
    processLinterOutput s =
      (if s.data.contains '{' then
        (match jsonParse (linterRepaired s) with
         | some v => Except.ok v
         | none => Except.error ())
       else Except.ok (Json.arr [])) := rfl

/-- `getLinterResult` fails (killing the process) exactly when the chunk
contains a brace and the repaired string does not parse. -/
theorem processLinterOutput_error_iff (s : String) :
    processLinterOutput s = Except.error () ↔
      (s.data.contains '{' = true ∧ jsonParse (linterRepaired s) = none) := by
  rw [processLinterOutput_def]
  cases h : s.data.contains '{' with
  | false => simp [h]
  | true =>
    cases hp : jsonParse (linterRepaired s) with
    | none => simp [hp]
    | some v => simp [hp]

theorem runTools_ok (ex : String → Bool) (chunk : String → String) (phase : String)
    {st : MotState} {f : String} (hst : st.failed = false) (hok : toolOk ex chunk f) :
    (runTools ex chunk phase st f).failed = false ∧
    (runTools ex chunk phase st f).trace = st.trace ++ runSeg ex phase f ∧
    (runTools ex chunk phase st f).files =
      updateResult st.files f (linterResultOf ex chunk f) phase := by
  cases hex : ex f with
  | false => simp [runTools, hst, hok.1, hex, runSeg, linterResultOf]
  | true =>
    cases hp : processLinterOutput (chunk f) with
    | ok v => simp [runTools, hst, hok.1, hex, hp, runSeg, linterResultOf]
    | error e =>
      cases e
      exact absurd hp (hok.2 hex)

theorem runTools_fold (ex : String → Bool) (chunk : String → String) (phase : String)
    (configs : List String) (st : MotState) (hst : st.failed = false)
    (hok : ∀ f ∈ configs, toolOk ex chunk f) :
    (configs.foldl (runTools ex chunk phase) st).failed = false ∧
    (configs.foldl (runTools ex chunk phase) st).trace =
      st.trace ++ configs.flatMap (runSeg ex phase) ∧
    (configs.foldl (runTools ex chunk phase) st).files =
      configs.foldl (fun m f => updateResult m f (linterResultOf ex chunk f) phase)
        st.files := by
  induction configs generalizing st with
  | nil => simp [hst]
  | cons g rest ih =>
    rcases runTools_ok ex chunk phase hst (hok g (by simp)) with ⟨h1, h2, h3⟩
    rcases ih (runTools ex chunk phase st g) h1 (fun f hf => hok f (by simp [hf]))
      with ⟨h4, h5, h6⟩
    refine ⟨h4, ?_, ?_⟩
    · rw [List.foldl_cons] at *
      rw [h5, h2, List.flatMap_cons, List.append_assoc]
    · rw [List.foldl_cons] at *
      rw [h6, h3, List.foldl_cons]

theorem runTools_dead {ex : String → Bool} {chunk : String → String} {phase : String}
    {st : MotState} {f : String} (h : st.failed = true) :
    runTools ex chunk phase st f = st := by
  simp [runTools, h]

theorem runTools_fold_dead {ex : String → Bool} {chunk : String → String} {phase : String}
    (configs : List String) (st : MotState) (h : st.failed = true) :
    configs.foldl (runTools ex chunk phase) st = st := by
  induction configs with
  | nil => rfl
  | cons g rest ih => rw [List.foldl_cons, runTools_dead h, ih]

theorem runTools_fails {ex : String → Bool} {chunk : String → String} {phase : String}
    {st : MotState} {f : String} (hex : ex f = true)
    (herr : processLinterOutput (chunk f) = Except.error ()) :
    (runTools ex chunk phase st f).failed = true := by
  cases hst : st.failed with
  | true => simp [runTools, hst]
  | false =>
    cases hemp : (jsTrim f.data).isEmpty with
    | true => simp [runTools, hst, hemp]
    | false => simp [runTools, hst, hemp, hex, herr]

theorem fold_fails_of_mem (ex : String → Bool) (chunk : String → String) (phase : String)
    (configs : List String) {f : String} (hf : f ∈ configs) (hex : ex f = true)
    (herr : processLinterOutput (chunk f) = Except.error ()) :
    ∀ st : MotState, (configs.foldl (runTools ex chunk phase) st).failed = true := by
  induction configs with
  | nil => exact absurd hf (List.not_mem_nil f)
  | cons g rest ih =>
    intro st
    rw [List.foldl_cons]
    by_cases hfr : f ∈ rest
    · exact ih hfr (runTools ex chunk phase st g)
    · have hfg : f = g := by
        rcases List.mem_cons.1 hf with h | h
        · exact h
        · exact absurd h hfr
      subst hfg
      have hfail : (runTools ex chunk phase st f).failed = true := runTools_fails hex herr
      rw [runTools_fold_dead rest _ hfail]
      exact hfail

theorem motTrace_update (st : MotState) (t : List Ev) :
    ({ st with trace := t } : MotState).trace = t := rfl

theorem motFailed_update (st : MotState) (t : List Ev) :
    ({ st with trace := t } : MotState).failed = st.failed := rfl

theorem motFiles_update (st : MotState) (t : List Ev) :
    ({ st with trace := t } : MotState).files = st.files := rfl

theorem motRun_eq (target : String) (exPR exTgt : String → Bool)
    (chunkPR chunkTgt : String → String) (configs : List String)
    (hlen : 0 < configs.length) :
    motRun target exPR exTgt chunkPR chunkTgt configs =
      doOnBranch target (configs.foldl (runTools exPR chunkPR "after") ⟨[], [], false⟩)
        (fun st => configs.foldl (runTools exTgt chunkTgt "before") st) := by
  simp [motRun, hlen]

theorem doOnBranch_ok {branch : String} {st : MotState} {action : MotState → MotState}
    (hst : st.failed = false)
    (hact : (action { st with trace := st.trace ++ [Ev.checkout branch] }).failed = false) :
    doOnBranch branch st action =
      { action { st with trace := st.trace ++ [Ev.checkout branch] } with
        trace := (action { st with trace := st.trace ++ [Ev.checkout branch] }).trace
          ++ [Ev.restore] } := by
  rw [hst] at hact
  simp [doOnBranch, hst, hact]

/-- Shape of a fully successful dual run: no failure, the trace is all
`after` segments, one checkout, all `before` segments, one restore, and
the files map is the `after` update pass followed by the `before` update
pass. -/
theorem motRun_ok_shape (target : String) (exPR exTgt : String → Bool)
    (chunkPR chunkTgt : String → String) (configs : List String)
    (hne : configs ≠ [])
    (hokA : ∀ f ∈ configs, toolOk exPR chunkPR f)
    (hokB : ∀ f ∈ configs, toolOk exTgt chunkTgt f) :
    (motRun target exPR exTgt chunkPR chunkTgt configs).failed = false ∧
    (motRun target exPR exTgt chunkPR chunkTgt configs).trace =
      configs.flatMap (runSeg exPR "after") ++ [Ev.checkout target]
        ++ configs.flatMap (runSeg exTgt "before") ++ [Ev.restore] ∧
    (motRun target exPR exTgt chunkPR chunkTgt configs).files =
      configs.foldl (fun m f => updateResult m f (linterResultOf exTgt chunkTgt f) "before")
        (configs.foldl (fun m f => updateResult m f (linterResultOf exPR chunkPR f) "after")
          []) := by
  have hlen : 0 < configs.length := List.length_pos.2 hne
  obtain ⟨hA1, hA2, hA3⟩ :=
    runTools_fold exPR chunkPR "after" configs ⟨[], [], false⟩ rfl hokA
  obtain ⟨hB1, hB2, hB3⟩ :=
    runTools_fold exTgt chunkTgt "before" configs
      { configs.foldl (runTools exPR chunkPR "after") ⟨[], [], false⟩ with
        trace := (configs.foldl (runTools exPR chunkPR "after") ⟨[], [], false⟩).trace
          ++ [Ev.checkout target] } hA1 hokB
  rw [motRun_eq target exPR exTgt chunkPR chunkTgt configs hlen, doOnBranch_ok hA1 hB1]
  refine ⟨hB1, ?_, ?_⟩
  · rw [motTrace_update, hB2, motTrace_update, hA2]
    simp
  · rw [motFiles_update, hB3, motFiles_update, hA3]

theorem isCheckout_false_of_mem_runSeg {e : Ev} {ex : String → Bool} {phase f : String}
    (he : e ∈ runSeg ex phase f) : isCheckout e = false := by
  rcases List.mem_cons.1 he with rfl | he1
  · rfl
  · cases hex : ex f with
    | false =>
      rw [hex] at he1
      simp at he1
    | true =>
      rw [hex] at he1
      simp at he1
      rw [he1]
      rfl

theorem countP_isCheckout_flatMap (ex : String → Bool) (phase : String)
    (configs : List String) :
    (configs.flatMap (runSeg ex phase)).countP isCheckout = 0 := by
  rw [List.countP_eq_zero]
  intro e he
  rcases List.mem_flatMap.1 he with ⟨f, _, hef⟩
  simp [isCheckout_false_of_mem_runSeg hef]

theorem updateResult_lookup_ne (m : List (String × List (String × Json))) (g : String)
    (v : Json) (phase : String) {f : String} (h : f ≠ g) :
    lookupKey (updateResult m g v phase) f = lookupKey m f := by
  unfold updateResult
  exact lookupKey_setKey_ne _ _ _ h

theorem updateResult_lookup_self (m : List (String × List (String × Json)))
    (f : String) (v : Json) (phase : String) :
    (lookupKey (updateResult m f v phase) f).bind (fun mm => lookupKey mm phase)
      = some v := by
  unfold updateResult
  rw [lookupKey_setKey_self]
  simp [lookupKey_setKey_self]

theorem updateFold_lookup_ne (r : String → Json) (phase : String) (f : String) :
    ∀ (configs : List String) (m0 : List (String × List (String × Json))),
      f ∉ configs →
      lookupKey (configs.foldl (fun m g => updateResult m g (r g) phase) m0) f
        = lookupKey m0 f := by
  intro configs
  induction configs with
  | nil => intro m0 _; rfl
  | cons g rest ih =>
    intro m0 hf
    have hfg : f ≠ g := fun h => hf (by simp [h])
    have hfr : f ∉ rest := fun h => hf (by simp [h])
    rw [List.foldl_cons, ih _ hfr, updateResult_lookup_ne _ _ _ _ hfg]

/-- After an update pass over `configs`, the `phase` slot of any file of
`configs` holds the value the pass computes for it. -/
theorem updateFold_lookup (r : String → Json) (phase : String) (f : String) :
    ∀ (configs : List String) (m0 : List (String × List (String × Json))),
      f ∈ configs →
      (lookupKey (configs.foldl (fun m g => updateResult m g (r g) phase) m0) f).bind
        (fun mm => lookupKey mm phase) = some (r f) := by
  intro configs
  induction configs with
  | nil => intro m0 hf; exact absurd hf (List.not_mem_nil f)
  | cons g rest ih =>
    intro m0 hf
    rw [List.foldl_cons]
    by_cases hfr : f ∈ rest
    · exact ih _ hfr
    · have hfg : f = g := by
        rcases List.mem_cons.1 hf with h | h
        · exact h
        · exact absurd h hfr
      subst hfg
      rw [updateFold_lookup_ne r phase f rest _ hfr]
      exact updateResult_lookup_self m0 f (r f) phase

/-- Every file is processed: the log holds exactly the successfully
validated files in order, the caught list exactly the files whose
validation threw, regardless of failures among the other files. -/
theorem mvMain_fold (validate : String → Except String (List ValidationError)) :
    ∀ (swaggers : List String) (st : MVState),
      (swaggers.foldl (mvStep validate) st).pipeLog =
        st.pipeLog ++ (swaggers.filter (fun f => (validate f).isOk)).map
          (fun f => (f, mvRecsOf validate f)) ∧
      (swaggers.foldl (mvStep validate) st).caught =
        st.caught ++ swaggers.filter (fun f => !(validate f).isOk) := by
  intro swaggers
  induction swaggers with
  | nil => intro st; simp
  | cons g rest ih =>
    intro st
    rw [List.foldl_cons]
    rcases ih (mvStep validate st g) with ⟨h1, h2⟩
    cases hv : validate g with
    | ok errs =>
      constructor
      · rw [h1]
        simp [mvStep, hv, List.filter_cons, mvRecsOf, Except.isOk, Except.toBool]
      · rw [h2]
        simp [mvStep, hv, List.filter_cons, Except.isOk, Except.toBool]
    | error e =>
      constructor
      · rw [h1]
        simp [mvStep, hv, List.filter_cons, mvRecsOf, Except.isOk, Except.toBool]
      · rw [h2]
        simp [mvStep, hv, List.filter_cons, Except.isOk, Except.toBool]

/-- A `runTools` step with a parsing chunk cannot kill the process. -/
theorem toolOk_of_ok {ex : String → Bool} {chunk : String → String} {f : String}
    (h1 : (jsTrim f.data).isEmpty = false) {v : Json}
    (h2 : processLinterOutput (chunk f) = Except.ok v) : toolOk ex chunk f :=
  ⟨h1, fun _ h => by rw [h2] at h; exact Except.noConfusion h⟩

/-- An invoke event inside a run segment fixes its phase, its file and
the file's existence. -/
theorem invoke_mem_runSeg {ph1 ph2 f g : String} {ex : String → Bool}
    (h : Ev.invoke ph1 f ∈ runSeg ex ph2 g) : ph1 = ph2 ∧ f = g ∧ ex g = true := by
  rcases List.mem_cons.1 h with h1 | h1
  · exact absurd h1 (by simp)
  · cases hex : ex g with
    | false =>
      rw [hex] at h1
      simp at h1
    | true =>
      rw [hex] at h1
      simp at h1
      exact ⟨h1.1, h1.2, rfl⟩

/-- C1: within one file, the comparator sort of part_000 lines 229-241
permutes the findings into an order that ascends by severity rank
`Info < Warning < Error` (most severe last) and, only when two findings
have equal severity, ascends by rule id lexicographically. -/
theorem C1_sort_order (l : List Diff) (h : ∀ d ∈ l, sevOk d) :
    List.Perm (sortDiffs l) l ∧ List.Pairwise keyLe (sortDiffs l) := by
  refine ⟨sortLe_perm diffLe l, ?_⟩
  have hp : ∀ x ∈ sortDiffs l, sevOk x := fun x hx => h x (mem_sortLe.1 hx)
  have hs : SortedBy diffLe (sortLe diffLe l) :=
    @sortLe_pairwise Diff diffLe sevOk (fun x y hx hy => diffLe_total hx hy)
      (fun x y z hx hy hz => diffLe_trans hx hy hz) l h
  exact List.Pairwise.imp_of_mem
    (fun ha hb hab => (diffLe_iff_keyLe (hp _ ha) (hp _ hb)).1 hab) hs

/-- `C1_sort_order` at the spec's example severities [Error, Info,
Warning]: the sort yields a permutation that is ascending in the key
order, i.e. [Info, Warning, Error]. -/
theorem C1_sort_order_witness :
    List.Perm (sortDiffs [dErrA, dInfoB, dWarnA]) [dErrA, dInfoB, dWarnA] ∧
    List.Pairwise keyLe (sortDiffs [dErrA, dInfoB, dWarnA]) :=
  C1_sort_order [dErrA, dInfoB, dWarnA] (by decide)

/-- C2 counterexample: on the claim's own input the linter repairer (the
one with the brace guard and the noise stripping, part_001 lines 69-88)
does not produce two records: its separator regex matches only a closing
brace, a NEWLINE and an opening brace, so the space-separated input
repairs to the unparseable `[{ "a":1 } { "a":2 }]` and the operation
fails instead. -/
theorem C2_counterexample :
    processLinterOutput "\x7b \"a\":1 \x7d \x7b \"a\":2 \x7d" = Except.error () := rfl

/-- C2 (amended): the oad repairer (part_000 line 78) replaces every
closing brace + whitespace + opening brace by `},{`, wraps in brackets
and parses the claim's space-separated input to exactly two records in
stream order; the linter repairer (part_001 lines 69-88) strips
progress-report noise lines, cuts at the first brace, trims, separates
only at `}` NEWLINE `{`, wraps in brackets and parses, so it yields the
two records in stream order for the newline-separated analogue (also
after a noise line). -/
theorem C2_repairers :
    runOadParse "\x7b \"a\":1 \x7d \x7b \"a\":2 \x7d" =
      Except.ok (Json.arr [Json.obj [("a", Json.num "1")],
        Json.obj [("a", Json.num "2")]]) ∧
    processLinterOutput "\x7b \"a\":1 \x7d\n\x7b \"a\":2 \x7d" =
      Except.ok (Json.arr [Json.obj [("a", Json.num "1")],
        Json.obj [("a", Json.num "2")]]) ∧
    processLinterOutput "Processing batch task - \x7b\"t\":0\x7d .\n\x7b \"a\":1 \x7d\n\x7b \"a\":2 \x7d" =
      Except.ok (Json.arr [Json.obj [("a", Json.num "1")],
        Json.obj [("a", Json.num "2")]]) :=
  ⟨rfl, rfl, rfl⟩

/-- C3: over a run of the breaking-change loop (part_000 lines 170-200),
`errors`/`warnings` are exactly the counts of Error/Warning findings
summed over all processed files (the per-file diff map), the run is
clean (exit flag unset, title of line 254 reads `No potential breaking
changes`) exactly when the error count is zero, and a run with zero
changed files yields zero counts and a clean state. -/
theorem C3_aggregator (swaggers newSwaggers : List String)
    (resolved : String → Option String)
    (oadDiffs : String → String → Option (List Diff))
    (hnd : swaggers.Nodup) :
    (processSwaggers swaggers newSwaggers resolved oadDiffs).errors =
      totalType "Error" (processSwaggers swaggers newSwaggers resolved oadDiffs).diffFiles ∧
    (processSwaggers swaggers newSwaggers resolved oadDiffs).warnings =
      totalType "Warning" (processSwaggers swaggers newSwaggers resolved oadDiffs).diffFiles ∧
    (isClean (processSwaggers swaggers newSwaggers resolved oadDiffs) ↔
      (processSwaggers swaggers newSwaggers resolved oadDiffs).errors = 0) ∧
    (swaggers = [] →
      (processSwaggers swaggers newSwaggers resolved oadDiffs).errors = 0 ∧
      (processSwaggers swaggers newSwaggers resolved oadDiffs).warnings = 0 ∧
      isClean (processSwaggers swaggers newSwaggers resolved oadDiffs)) := by
  obtain ⟨h1, h2⟩ := processLoop_counts newSwaggers resolved oadDiffs swaggers initBCState
    hnd (fun s _ => rfl) rfl rfl
  have h3 := processLoop_exit newSwaggers resolved oadDiffs swaggers initBCState rfl
  refine ⟨h1, h2, ?_, ?_⟩
  · unfold isClean processSwaggers
    rw [h3]
    simp
  · intro h
    subst h
    exact ⟨rfl, rfl, rfl⟩

/-- `C3_aggregator` at a run with one file carrying one Error and two
Warning findings, checking the concrete outcome 1 error, 2 warnings,
not clean. -/
theorem C3_aggregator_witness :
    (processSwaggers ["a.json"] [] (fun _ => some "r")
        (fun _ _ => some [dErrA, dWarnA, dWarnA])).errors =
      totalType "Error" (processSwaggers ["a.json"] [] (fun _ => some "r")
        (fun _ _ => some [dErrA, dWarnA, dWarnA])).diffFiles ∧
    (processSwaggers ["a.json"] [] (fun _ => some "r")
        (fun _ _ => some [dErrA, dWarnA, dWarnA])).errors = 1 ∧
    (processSwaggers ["a.json"] [] (fun _ => some "r")
        (fun _ _ => some [dErrA, dWarnA, dWarnA])).warnings = 2 :=
  ⟨(C3_aggregator ["a.json"] [] (fun _ => some "r")
      (fun _ _ => some [dErrA, dWarnA, dWarnA]) (by decide)).1,
    by decide, by decide⟩

/-- C5: in one run of the breaking-change loop a file recorded as newly
added in the PR is never a key of the per-file diff map. (The dual-run
script of part_001 has no new-file set, so the invariant lives in the
breaking-change run.) -/
theorem C5_new_file_exclusion (swaggers newSwaggers : List String)
    (resolved : String → Option String)
    (oadDiffs : String → String → Option (List Diff)) (f : String)
    (hf : f ∈ (processSwaggers swaggers newSwaggers resolved oadDiffs).newFiles) :
    lookupKey (processSwaggers swaggers newSwaggers resolved oadDiffs).diffFiles f
      = none := by
  obtain ⟨h1, h2⟩ := processLoop_newFiles newSwaggers resolved oadDiffs swaggers
    initBCState (fun g hg => absurd hg (List.not_mem_nil g)) (fun k _ => rfl)
  exact h2 f (h1 f hf)

/-- `C5_new_file_exclusion` on a run with one new and one diffed file. -/
theorem C5_new_file_exclusion_witness :
    "n.json" ∈ (processSwaggers ["n.json", "b.json"] ["n.json"]
        (fun _ => some "r") (fun _ _ => some [dErrA])).newFiles ∧
    lookupKey (processSwaggers ["n.json", "b.json"] ["n.json"]
        (fun _ => some "r") (fun _ _ => some [dErrA])).diffFiles "n.json" = none :=
  ⟨by decide,
    C5_new_file_exclusion ["n.json", "b.json"] ["n.json"] (fun _ => some "r")
      (fun _ _ => some [dErrA]) "n.json" (by decide)⟩

/-- C4: a repaired linter stream that is not parseable JSON fails the
operation (the MalformedOutput case, modelled as `Except.error`); in the
batch linter/breaking-change flow this is fatal — `process.exit(1)` at
part_001 line 84 kills the whole run, modelled by the `failed` flag of
`motRun` — while the model-validation flow catches per file
(src/modelValidationPipeline.ts lines 70-74), records the failure against
that file alone and still processes every other file. -/
theorem C4_malformed_output :
    (∀ s : String, processLinterOutput s = Except.error () ↔
        (s.data.contains '{' = true ∧ jsonParse (linterRepaired s) = none)) ∧
    (∀ (target : String) (exPR exTgt : String → Bool)
        (chunkPR chunkTgt : String → String) (configs : List String),
      (∃ f ∈ configs, exPR f = true ∧
          processLinterOutput (chunkPR f) = Except.error ()) →
      (motRun target exPR exTgt chunkPR chunkTgt configs).failed = true) ∧
    (∀ (validate : String → Except String (List ValidationError))
        (swaggers : List String),
      (mvMain validate swaggers).pipeLog =
        (swaggers.filter (fun f => (validate f).isOk)).map
          (fun f => (f, mvRecsOf validate f)) ∧
      (mvMain validate swaggers).caught =
        swaggers.filter (fun f => !(validate f).isOk)) := by
  refine ⟨processLinterOutput_error_iff, ?_, ?_⟩
  · intro target exPR exTgt chunkPR chunkTgt configs h
    obtain ⟨f, hf, hex, herr⟩ := h
    have hlen : 0 < configs.length := List.length_pos.2 (List.ne_nil_of_mem hf)
    rw [motRun_eq target exPR exTgt chunkPR chunkTgt configs hlen]
    have h1 := fold_fails_of_mem exPR chunkPR "after" configs hf hex herr ⟨[], [], false⟩
    simp [doOnBranch, h1]
  · intro validate swaggers
    have h := mvMain_fold validate swaggers ⟨0, [], []⟩
    simpa [mvMain] using h

/-- `C4_malformed_output` at a one-file run whose linter chunk repairs to
unparseable JSON: the whole dual run dies. -/
theorem C4_malformed_output_witness :
    (motRun "master" (fun _ => true) (fun _ => true) (fun _ => "\x7b bad \x7d")
        (fun _ => "\x7b bad \x7d") ["a.json"]).failed = true :=
  C4_malformed_output.2.1 "master" (fun _ => true) (fun _ => true)
    (fun _ => "\x7b bad \x7d") (fun _ => "\x7b bad \x7d") ["a.json"]
    ⟨"a.json", by decide, rfl, by rfl⟩

/-- A single `runTools` call appends no checkout event to the trace,
whatever its outcome. -/
theorem runTools_trace_countP (ex : String → Bool) (chunk : String → String)
    (phase : String) (st : MotState) (f : String) :
    ((runTools ex chunk phase st f).trace).countP isCheckout
      = (st.trace).countP isCheckout := by
  cases hst : st.failed with
  | true => simp [runTools, hst]
  | false =>
    cases hemp : (jsTrim f.data).isEmpty with
    | true =>
      simp [runTools, hst, hemp, List.countP_append, List.countP_cons, isCheckout]
    | false =>
      cases hex : ex f with
      | false =>
        simp [runTools, hst, hemp, hex, List.countP_append, List.countP_cons, isCheckout]
      | true =>
        cases hp : processLinterOutput (chunk f) with
        | ok v =>
          simp [runTools, hst, hemp, hex, hp, List.countP_append, List.countP_cons,
            isCheckout]
        | error e =>
          simp [runTools, hst, hemp, hex, hp, List.countP_append, List.countP_cons,
            isCheckout]

/-- A whole phase of `runTools` calls appends no checkout event,
whatever its outcome. -/
theorem runTools_fold_countP (ex : String → Bool) (chunk : String → String)
    (phase : String) (configs : List String) (st : MotState) :
    ((configs.foldl (runTools ex chunk phase) st).trace).countP isCheckout
      = (st.trace).countP isCheckout := by
  induction configs generalizing st with
  | nil => rfl
  | cons g rest ih => rw [List.foldl_cons, ih, runTools_trace_countP]

/-- The modelled `doOnBranch` adds exactly one checkout event when the
incoming state is alive and none otherwise, provided the action itself
adds no checkout. -/
theorem doOnBranch_countP (branch : String) (st : MotState)
    (action : MotState → MotState)
    (hact : ∀ s : MotState, ((action s).trace).countP isCheckout
      = (s.trace).countP isCheckout) :
    ((doOnBranch branch st action).trace).countP isCheckout
      = (st.trace).countP isCheckout + (if st.failed = true then 0 else 1) := by
  cases hf : st.failed with
  | true => simp [doOnBranch, hf]
  | false =>
    have h1 := hact { st with trace := st.trace ++ [Ev.checkout branch] }
    rw [hf] at h1
    cases hf1 : (action { st with trace := st.trace ++ [Ev.checkout branch] }).failed with
    | true =>
      rw [hf] at hf1
      simp [doOnBranch, hf, hf1, h1, List.countP_append, List.countP_cons, isCheckout]
    | false =>
      rw [hf] at hf1
      simp [doOnBranch, hf, hf1, h1, List.countP_append, List.countP_cons, isCheckout]

/-- Exact checkout count of a dual run, with no assumption on the
chunks: one checkout when there is at least one config file and the
after phase leaves the process alive, zero otherwise (a malformed
after-phase chunk is `process.exit(1)` at part_001 line 84, before
`doOnBranch`; an empty config list skips the whole block at line 118). -/
theorem motRun_countP_checkout (target : String) (exPR exTgt : String → Bool)
    (chunkPR chunkTgt : String → String) (configs : List String) :
    ((motRun target exPR exTgt chunkPR chunkTgt configs).trace).countP isCheckout =
      (if 0 < configs.length ∧
          (configs.foldl (runTools exPR chunkPR "after")
            ⟨[], [], false⟩).failed = false
        then 1 else 0) := by
  by_cases hlen : 0 < configs.length
  · rw [motRun_eq target exPR exTgt chunkPR chunkTgt configs hlen,
      doOnBranch_countP target _ _
        (fun s => runTools_fold_countP exTgt chunkTgt "before" configs s),
      runTools_fold_countP]
    cases hf : (configs.foldl (runTools exPR chunkPR "after") ⟨[], [], false⟩).failed with
    | true => simp [hlen, hf]
    | false => simp [hlen, hf]
  · have hconfigs : configs = [] := by
      cases configs with
      | nil => rfl
      | cons a l => exact absurd (by simp) hlen
    subst hconfigs
    simp [motRun]

/-- C6 counterexample: an invocation with no changed config files skips
the whole block (part_001 line 118), so the checkout capability is
invoked zero times — not exactly once per invocation as claimed. -/
theorem C6_counterexample :
    ¬ ((motRun "master" (fun _ => true) (fun _ => true) (fun _ => "")
        (fun _ => "") []).trace.countP isCheckout = 1) := by decide

/-- C6 (amended): the checkout capability is invoked at most once per
dual-run invocation — never a second checkout — and exactly once
precisely when there is at least one config file and the after phase
leaves the process alive (a malformed after-phase chunk is
`process.exit(1)` at part_001 line 84, before `doOnBranch` ever runs,
giving zero checkouts; an empty config list skips the block at line
118). When every file's processing in both phases completes without
killing the process, the trace is exactly: all after runs, the single
checkout, all before runs, the restore — so every before run executes
inside the one reference checkout and no before run interleaves with an
after run or a second checkout. -/
theorem C6_single_checkout :
    (∀ (target : String) (exPR exTgt : String → Bool)
        (chunkPR chunkTgt : String → String) (configs : List String),
      ((motRun target exPR exTgt chunkPR chunkTgt configs).trace).countP isCheckout
        ≤ 1) ∧
    (∀ (target : String) (exPR exTgt : String → Bool)
        (chunkPR chunkTgt : String → String) (configs : List String),
      (((motRun target exPR exTgt chunkPR chunkTgt configs).trace).countP isCheckout
          = 1
        ↔ (0 < configs.length ∧
            (configs.foldl (runTools exPR chunkPR "after")
              ⟨[], [], false⟩).failed = false))) ∧
    (∀ (target : String) (exPR exTgt : String → Bool)
        (chunkPR chunkTgt : String → String) (configs : List String),
      configs ≠ [] →
      (∀ f ∈ configs, toolOk exPR chunkPR f) →
      (∀ f ∈ configs, toolOk exTgt chunkTgt f) →
      (motRun target exPR exTgt chunkPR chunkTgt configs).trace =
        configs.flatMap (runSeg exPR "after") ++ [Ev.checkout target]
          ++ configs.flatMap (runSeg exTgt "before") ++ [Ev.restore]) := by
  refine ⟨?_, ?_, ?_⟩
  · intro target exPR exTgt chunkPR chunkTgt configs
    rw [motRun_countP_checkout]
    split_ifs <;> omega
  · intro target exPR exTgt chunkPR chunkTgt configs
    rw [motRun_countP_checkout]
    split_ifs with h
    · simp [h]
    · simp [h]
  · intro target exPR exTgt chunkPR chunkTgt configs hne hokA hokB
    exact (motRun_ok_shape target exPR exTgt chunkPR chunkTgt configs hne hokA hokB).2.1

/-- `C6_single_checkout` at a concrete one-file invocation: at most one
checkout, and the full-success trace shape with its single checkout. -/
theorem C6_single_checkout_witness :
    ((motRun "master" (fun _ => true) (fun _ => true) (fun _ => "\x7b\x7d")
        (fun _ => "\x7b\x7d") ["a.json"]).trace).countP isCheckout ≤ 1 ∧
    (motRun "master" (fun _ => true) (fun _ => true) (fun _ => "\x7b\x7d")
        (fun _ => "\x7b\x7d") ["a.json"]).trace =
      ["a.json"].flatMap (runSeg (fun _ => true) "after") ++ [Ev.checkout "master"]
        ++ ["a.json"].flatMap (runSeg (fun _ => true) "before") ++ [Ev.restore] :=
  ⟨C6_single_checkout.1 "master" (fun _ => true) (fun _ => true)
      (fun _ => "\x7b\x7d") (fun _ => "\x7b\x7d") ["a.json"],
    C6_single_checkout.2.2 "master" (fun _ => true) (fun _ => true)
      (fun _ => "\x7b\x7d") (fun _ => "\x7b\x7d") ["a.json"] (by decide)
      (by
        intro f hf
        rw [List.mem_singleton.1 hf]
        exact toolOk_of_ok rfl rfl)
      (by
        intro f hf
        rw [List.mem_singleton.1 hf]
        exact toolOk_of_ok rfl rfl)⟩

/-- C7: the classifier record built for one validation error carries at
most two locations, and a tagged location is emitted exactly when both
its path (a truthy url) and its position are present in the record — a
record with an absent url or absent position contributes no location of
that tag. -/
theorem C7_classifier_locations (it : ValidationError) :
    (toResultRecord it).paths.length ≤ 2 ∧
    ((∃ pr ∈ (toResultRecord it).paths, pr.tag = "Url") ↔
      ((∃ u, it.url = some u ∧ u.isEmpty = false) ∧ it.position.isSome = true)) ∧
    ((∃ pr ∈ (toResultRecord it).paths, pr.tag = "JsonUrl") ↔
      ((∃ u, it.jsonUrl = some u ∧ u.isEmpty = false) ∧
        it.jsonPosition.isSome = true)) := by
  obtain ⟨c, m, u, p, ju, jp⟩ := it
  refine ⟨?_, ?_, ?_⟩
  · cases u <;> cases p <;> cases ju <;> cases jp <;>
      simp [toResultRecord] <;> split_ifs <;> simp
  · cases u <;> cases p <;> cases ju <;> cases jp <;>
      simp [toResultRecord, and_assoc, or_and_right, exists_or]
  · cases u <;> cases p <;> cases ju <;> cases jp <;>
      simp [toResultRecord, and_assoc, or_and_right, exists_or]

/-- `C7_classifier_locations` at a record with a source location and no
compiled-JSON location. -/
theorem C7_classifier_locations_witness :
    (toResultRecord ⟨some "c1", some "m", some "u.json", some 3, none, none⟩).paths.length
      ≤ 2 :=
  (C7_classifier_locations ⟨some "c1", some "m", some "u.json", some 3, none, none⟩).1

/-- C8: the comparator sort is stable — two findings with equal type and
equal rule id keep their original relative order (sublist preservation) —
and sorting an already-sorted finding list returns it unchanged. -/
theorem C8_sort_stable_idempotent :
    (∀ (l : List Diff) (x y : Diff), x.type = y.type → x.id = y.id →
        List.Sublist [x, y] l → List.Sublist [x, y] (sortDiffs l)) ∧
    (∀ l : List Diff, SortedBy diffLe l → sortDiffs l = l) := by
  constructor
  · intro l x y hty hid hsub
    have hle : diffLe x y = true := by
      simp [diffLe, diffCompare, hty, hid, lexCmp_refl]
    have hc : SortedBy diffLe [x, y] := by
      simp [SortedBy, List.pairwise_cons, hle]
    exact sortLe_stable hc hsub
  · intro l h
    exact sortLe_eq_self h

/-- `C8_sort_stable_idempotent` concretely: two tied Error findings stay
in order across an interposed Info finding, and a sorted list is left
unchanged. -/
theorem C8_sort_stable_idempotent_witness :
    List.Sublist [dErrA, dErrB] (sortDiffs [dErrA, dInfoB, dErrB]) ∧
    sortDiffs [dInfoB, dWarnA, dErrA] = [dInfoB, dWarnA, dErrA] :=
  ⟨C8_sort_stable_idempotent.1 [dErrA, dInfoB, dErrB] dErrA dErrB rfl rfl (by decide),
    C8_sort_stable_idempotent.2 [dInfoB, dWarnA, dErrA] (by decide)⟩

/-- C9: a raw chunk with no opening brace yields the empty finding
sequence and no failure (part_001 lines 70 and 87). -/
theorem C9_no_brace_empty (s : String) (h : s.data.contains '{' = false) :
    processLinterOutput s = Except.ok (Json.arr []) := by
  rw [processLinterOutput_def, h]
  rfl

/-- `C9_no_brace_empty` at a brace-free diagnostic chunk. -/
theorem C9_no_brace_empty_witness :
    processLinterOutput "error: something went wrong" = Except.ok (Json.arr []) :=
  C9_no_brace_empty "error: something went wrong" (by decide)

/-- C10: a swagger path missing on disk makes `getLinterResult` return
the empty finding list without invoking the external tool (part_001
lines 55-57); so in a dual run a file absent from the reference branch is
recorded in the dual report with before = [] — and no before-phase tool
invocation for it appears in the trace — rather than being excluded or
failing. -/
theorem C10_missing_file (target : String) (exPR exTgt : String → Bool)
    (chunkPR chunkTgt : String → String) (configs : List String) (f : String)
    (hne : configs ≠ [])
    (hokA : ∀ g ∈ configs, toolOk exPR chunkPR g)
    (hokB : ∀ g ∈ configs, toolOk exTgt chunkTgt g)
    (hf : f ∈ configs) (hmiss : exTgt f = false) :
    (lookupKey (motRun target exPR exTgt chunkPR chunkTgt configs).files f).bind
      (fun mm => lookupKey mm "before") = some (Json.arr []) ∧
    Ev.invoke "before" f ∉ (motRun target exPR exTgt chunkPR chunkTgt configs).trace := by
  obtain ⟨_, h2, h3⟩ :=
    motRun_ok_shape target exPR exTgt chunkPR chunkTgt configs hne hokA hokB
  constructor
  · rw [h3, updateFold_lookup (linterResultOf exTgt chunkTgt) "before" f configs _ hf]
    congr 1
    simp [linterResultOf, hmiss]
  · rw [h2]
    intro hmem
    rcases List.mem_append.1 hmem with hmem | hmem
    · rcases List.mem_append.1 hmem with hmem | hmem
      · rcases List.mem_append.1 hmem with hmem | hmem
        · rcases List.mem_flatMap.1 hmem with ⟨g, _, hin⟩
          have hph := (invoke_mem_runSeg hin).1
          simp at hph
        · simp at hmem
      · rcases List.mem_flatMap.1 hmem with ⟨g, _, hin⟩
        obtain ⟨_, hfg, hexg⟩ := invoke_mem_runSeg hin
        rw [← hfg] at hexg
        rw [hexg] at hmiss
        exact Bool.noConfusion hmiss
    · simp at hmem

/-- `C10_missing_file` at a one-file dual run where the file is missing
from the reference checkout. -/
theorem C10_missing_file_witness :
    (lookupKey (motRun "master" (fun _ => true) (fun _ => false)
        (fun _ => "\x7b\x7d") (fun _ => "") ["a.json"]).files "a.json").bind
      (fun mm => lookupKey mm "before") = some (Json.arr []) :=
  (C10_missing_file "master" (fun _ => true) (fun _ => false) (fun _ => "\x7b\x7d")
    (fun _ => "") ["a.json"] "a.json" (by decide)
    (by
      intro g hg
      rw [List.mem_singleton.1 hg]
      exact toolOk_of_ok rfl rfl)
    (by
      intro g hg
      rw [List.mem_singleton.1 hg]
      exact ⟨rfl, fun hx => Bool.noConfusion hx⟩)
    (by decide) rfl).1
